import Mathlib

set_option maxRecDepth 4000000

/-! Verification of the programmingbitcoin elliptic-curve / ECDSA engine.

The Rust sources are shallowly embedded: `rug::Integer` becomes `Int`,
byte vectors become `List Nat`, fallible operations return `Except`,
and operations that can panic (Rust `unwrap`, `unreachable!`, slice
index out of range) return a `RustOutcome` whose `panicked` constructor
marks the abnormal termination.  Loops of the source are embedded as
fuel-indexed structural recursions whose fuel provably dominates the
number of iterations the Rust loop performs. -/

/-- Result of running a piece of Rust code that may panic: either a
normal value or a panic (Rust `unwrap` failure, `unreachable!`, or an
out-of-range slice index). -/
inductive RustOutcome (α : Type) where
  | ok : α → RustOutcome α
  | panicked : RustOutcome α
deriving DecidableEq, Repr

/-- Fuel-indexed modular exponentiation by squaring; the embedding of the
GMP `pow_mod` primitive used by `rug::Integer::pow_mod_ref`.  Written
tail-recursively with an accumulator; the comparison in front of the
recursive call has identical branches and exists only to force the
intermediate products to numeric literals, keeping kernel evaluation
shallow.  The fuel bounds the recursion depth (one unit per exponent
halving) and is set so that it never runs out. -/
def powModAux : Nat → Int → Nat → Int → Int → Int
  | 0, _, _, m, acc => acc % m
  | f+1, b, e, m, acc =>
    if e = 0 then acc % m
    else
      let b2 := (b * b) % m
      let acc2 := if e % 2 = 1 then (acc * b) % m else acc
      if b2 < 0 ∨ acc2 < 0 then powModAux f b2 (e / 2) m acc2
      else powModAux f b2 (e / 2) m acc2

/-- Modular exponentiation: `powMod a e m = a ^ e mod m` (proved below). -/
def powMod (a : Int) (e : Nat) (m : Int) : Int := powModAux (e + 1) a e m 1

/-- Fuel-indexed extended Euclidean algorithm.  State: two rows
`(r0, s0, t0)` and `(r1, s1, t1)` each satisfying `r = s * A + t * B`
for the original inputs `A`, `B`.  The embedding of the GMP extended
gcd underlying `rug::Integer::invert`. -/
def egcdAux : Nat → Nat → Int → Int → Nat → Int → Int → Nat × Int × Int
  | 0, r0, s0, t0, _, _, _ => (r0, s0, t0)
  | fuel+1, r0, s0, t0, r1, s1, t1 =>
    if r1 = 0 then (r0, s0, t0)
    else
      let q : Nat := r0 / r1
      egcdAux fuel r1 s1 t1 (r0 % r1) (s0 - q * s1) (t0 - q * t1)

/-- Extended gcd: `egcd a b = (g, x, y)` with `g = gcd a b` and
`x * a + y * b = g` (proved below). -/
def egcd (a b : Nat) : Nat × Int × Int := egcdAux (b + 1) a 1 0 b 0 1

/-- Modular inverse computed from the extended gcd; the value returned by
`rug::Integer::invert` when the gcd is 1.  Defined for every input; only
meaningful when `gcd v m = 1`. -/
def modInv (v m : Int) : Int :=
  ((egcd (v % m).natAbs m.natAbs).2.1) % m

/-- The embedding of `rug::Integer::invert(self, modulo)`: `some` of the
inverse when `gcd v m = 1`, `none` (an `Err`) otherwise. -/
def invert (v m : Int) : Option Int :=
  if Int.gcd v m = 1 then some (modInv v m) else none

/-! ## Prime field: `GaloisField` and `FieldElement` (finitefield.rs)

The Rust `FieldElement` holds `value: Integer` and `field: Rc<GaloisField>`;
`Rc` sharing with derived `PartialEq` compares the pointed-to prime, so the
embedding flattens the field reference into the prime itself. -/

/-- Rust `GaloisField::value_of`: canonical residue of `value` in the field.
The Rust code takes the Euclidean remainder only when the value is
outside `[0, prime)`. -/
def value_of (prime value : Int) : Int :=
  if value < 0 ∨ value ≥ prime then value % prime else value

/-- An element of a Galois field (finitefield.rs `FieldElement`). -/
structure FieldElement where
  value : Int
  prime : Int
deriving DecidableEq, Repr

/-- Rust `FieldElement::new`: normalizes the raw value through `value_of`. -/
def FieldElement.new (v p : Int) : FieldElement :=
  { value := value_of p v, prime := p }

/-- Rust `FieldElement::pow` (finitefield.rs): the `prime == 1` case short
circuits to zero, otherwise GMP `pow_mod`.  Claim-relevant call sites use
non-negative exponents only, so the exponent is a `Nat`. -/
def FieldElement.pow (a : FieldElement) (e : Nat) : FieldElement :=
  if a.prime = 1 then FieldElement.new 0 a.prime
  else FieldElement.new (powMod a.value e a.prime) a.prime

/-- Rust `FieldElement::is_zero`. -/
def FieldElement.is_zero (a : FieldElement) : Bool := a.value = 0

/-- Rust `Add for FieldElement`: `new(self.value + other.value, self.field)`. -/
def FieldElement.add (a b : FieldElement) : FieldElement :=
  FieldElement.new (a.value + b.value) a.prime

/-- Rust `Sub for FieldElement`: `new(self.value - other.value, self.field)`. -/
def FieldElement.sub (a b : FieldElement) : FieldElement :=
  FieldElement.new (a.value - b.value) a.prime

/-- Rust `Mul for FieldElement`: `new(self.value * other.value, self.field)`. -/
def FieldElement.mul (a b : FieldElement) : FieldElement :=
  FieldElement.new (a.value * b.value) a.prime

/-- Rust `Mul<&FieldElement> for &Integer` (also the `u32` variant):
`new(i * other.value, other.field)`. -/
def FieldElement.intMul (i : Int) (a : FieldElement) : FieldElement :=
  FieldElement.new (i * a.value) a.prime

/-- Rust `Add<&Integer> for FieldElement`: `new(self.value + i, self.field)`. -/
def FieldElement.addInt (a : FieldElement) (i : Int) : FieldElement :=
  FieldElement.new (a.value + i) a.prime

/-- Rust `Div for FieldElement`: inverts `other.value` modulo `self.field.prime`;
when no inverse exists the Rust code runs `unreachable!()`, i.e. panics. -/
def FieldElement.div (a b : FieldElement) : RustOutcome FieldElement :=
  match invert b.value a.prime with
  | some inv => RustOutcome.ok (FieldElement.new (a.value * inv) a.prime)
  | none => RustOutcome.panicked

/-! ## Elliptic curve group (ellipticcurve.rs)

A `Point` holds optional coordinates; the curve descriptor
(coefficients `a`, `b` and the field prime) is passed to each operation,
mirroring the `curve: FiniteEllipticCurve` field every Rust `Point`
carries (all points of one computation share one descriptor). -/

/-- ellipticcurve.rs `Point`: infinite values are represented by `x` or
`y` or both being `None`. -/
structure Point where
  x : Option FieldElement
  y : Option FieldElement
deriving DecidableEq, Repr

/-- Rust `Point::infinity` / `Point::identity`. -/
def Point.infinity : Point := ⟨none, none⟩

/-- Rust `Point::is_identity` (also `is_infinity`). -/
def Point.is_identity (P : Point) : Bool := P.x.isNone && P.y.isNone

/-- Rust `FiniteEllipticCurve::on_curve`: `y² == x³ + a·x + b` in the bound
field, computed exactly as the Rust expression
`y.pow(2) == x.pow(3) + &a * x + &b` (FieldElement equality). -/
def on_curve (a b : Int) (x y : FieldElement) : Bool :=
  y.pow 2 = ((x.pow 3).add (FieldElement.intMul a x)).addInt b

/-- Rust `FiniteEllipticCurve::make_point_integral`: builds field elements,
checks curve membership, errs with the literal Rust string otherwise. -/
def make_point_integral (p a b : Int) (x y : Int) : Except String Point :=
  let fx := FieldElement.new x p
  let fy := FieldElement.new y p
  if on_curve a b fx fy then Except.ok ⟨some fx, some fy⟩
  else Except.error "Point is not on curve"

/-- Rust `FiniteEllipticCurve::make_point`: dispatches on coordinate
presence; any pattern other than both-present yields the infinity
point. -/
def make_point (p a b : Int) (x y : Option Int) : Except String Point :=
  match x, y with
  | some xr, some yr => make_point_integral p a b xr yr
  | _, _ => Except.ok Point.infinity

/-- Rust `Point::tangent_slope` inner expression
`(3 * x.pow(2) + a) / (2 * y)` (the division may panic). -/
def tangent_slope (a : Int) (x y : FieldElement) : RustOutcome FieldElement :=
  FieldElement.div ((FieldElement.intMul 3 (x.pow 2)).addInt a) (FieldElement.intMul 2 y)

/-- Rust `Point::slope` inner expression `(y2 - y1) / (x2 - x1)`. -/
def chord_slope (x1 y1 x2 y2 : FieldElement) : RustOutcome FieldElement :=
  FieldElement.div (y2.sub y1) (x2.sub x1)

/-- Rust `Add for Point` (ellipticcurve.rs lines 128-163), including the
panic of the slope divisions. -/
def Point.add (a : Int) (P Q : Point) : RustOutcome Point :=
  if Q.is_identity then RustOutcome.ok P
  else if P.is_identity then RustOutcome.ok Q
  else
    match P.x, P.y, Q.x, Q.y with
    | some x1, some y1, some x2, some y2 =>
      if P = Q then
        if y1.is_zero then RustOutcome.ok Point.infinity
        else
          match tangent_slope a x1 y1 with
          | RustOutcome.panicked => RustOutcome.panicked
          | RustOutcome.ok slope =>
            let x3 := (slope.pow 2).sub (FieldElement.intMul 2 x1)
            let y3 := (slope.mul (x1.sub x3)).sub y1
            RustOutcome.ok ⟨some x3, some y3⟩
      else if x1 = x2 then RustOutcome.ok Point.infinity
      else
        match chord_slope x1 y1 x2 y2 with
        | RustOutcome.panicked => RustOutcome.panicked
        | RustOutcome.ok slope =>
          let x3 := ((slope.pow 2).sub x1).sub x2
          let y3 := (slope.mul (x1.sub x3)).sub y1
          RustOutcome.ok ⟨some x3, some y3⟩
    | _, _, _, _ => RustOutcome.ok Point.infinity

/-- The double-and-add loop of `Mul<&Integer> for &Point`
(ellipticcurve.rs lines 189-205).  One fuel unit per iteration; the
top-level entry supplies fuel strictly greater than the iteration
count, so the fuel-exhausted branch is never taken. -/
def Point.mulLoop (a : Int) : Nat → Int → Point → Point → RustOutcome Point
  | 0, _, _, result => RustOutcome.ok result
  | fuel+1, coeff, current, result =>
    if coeff > 0 then
      match (if coeff % 2 = 1 then Point.add a result current else RustOutcome.ok result) with
      | RustOutcome.panicked => RustOutcome.panicked
      | RustOutcome.ok result' =>
        match Point.add a current current with
        | RustOutcome.panicked => RustOutcome.panicked
        | RustOutcome.ok current' => Point.mulLoop a fuel (coeff / 2) current' result'
    else RustOutcome.ok result

/-- Rust `Mul<&Integer> for &Point`: scalar multiplication by an `Integer`
coefficient (`Mul<&FieldElement>` delegates here with the raw value). -/
def Point.mul (a : Int) (coeff : Int) (P : Point) : RustOutcome Point :=
  Point.mulLoop a (coeff.toNat + 1) coeff P Point.infinity

/-- Well-formed point: the coordinates are both present or both absent
(the invariant documented for Rust `Point`; the identity is the
both-absent case). -/
def Point.wf (P : Point) : Prop := P.x.isSome = P.y.isSome

/-! ## ECDSA engine (ecdsa.rs)

`CryptographicCurve::new_secp256k1` constants, written in decimal
(`p = 2^256 - 2^32 - 977`, and the standard generator and order). -/

/-- secp256k1 base-field prime `p = 2^256 - 2^32 - 977`. -/
def secp_p : Int := 115792089237316195423570985008687907853269984665640564039457584007908834671663

/-- secp256k1 curve order `n`. -/
def secp_n : Int := 115792089237316195423570985008687907852837564279074904382605163141518161494337

/-- secp256k1 generator x coordinate. -/
def secp_gx : Int := 55066263022277343669578718895168534326250603453777594175500187360389116729240

/-- secp256k1 generator y coordinate. -/
def secp_gy : Int := 32670510020758816978083085130507043184471273380659243275938904335757337482424

/-- The secp256k1 generator point (coordinates are canonical residues
modulo `secp_p`, as produced by `make_point_integral`). -/
def secp_G : Point := ⟨some ⟨secp_gx, secp_p⟩, some ⟨secp_gy, secp_p⟩⟩

/-- An ECDSA signature (ecdsa.rs `Signature`): `r` and `s` are field
elements of the scalar field (modulo the curve order). -/
structure Signature where
  r : FieldElement
  s : FieldElement
deriving DecidableEq, Repr

/-- Rust `PrivateKey::sign` (ecdsa.rs lines 114-128) over a generic
cryptographic curve: curve coefficient `a`, order `n`, generator `G`,
and the stored secret field element.  `make_element` wraps the message
and nonce modulo `n`; the generator multiple uses the wrapped nonce
value; the `.x.unwrap()` and the field division can panic. -/
def sign (a n : Int) (G : Point) (secret : FieldElement) (nonce message : Int) :
    RustOutcome Signature :=
  let z := FieldElement.new message n
  let k := FieldElement.new nonce n
  match Point.mul a k.value G with
  | RustOutcome.panicked => RustOutcome.panicked
  | RustOutcome.ok R =>
    match R.x with
    | none => RustOutcome.panicked
    | some rfe =>
      let r := rfe.value
      match (z.add (FieldElement.intMul r secret)).div k with
      | RustOutcome.panicked => RustOutcome.panicked
      | RustOutcome.ok s0 =>
        let s := if s0.value > n / 2 then FieldElement.mk (n - s0.value) s0.prime else s0
        RustOutcome.ok ⟨FieldElement.new r n, s⟩

/-- Rust `Signature::verify` (ecdsa.rs lines 81-93) over a generic curve:
`u = z / s`, `v = r / s`, `total = u·G + v·P`, then compare the raw x
value of `total` against the raw value of `r`. -/
def verify (a : Int) (G P : Point) (z r s : FieldElement) : RustOutcome Bool :=
  match (FieldElement.div z s) with
  | RustOutcome.panicked => RustOutcome.panicked
  | RustOutcome.ok u =>
    match (FieldElement.div r s) with
    | RustOutcome.panicked => RustOutcome.panicked
    | RustOutcome.ok v =>
      match Point.mul a u.value G with
      | RustOutcome.panicked => RustOutcome.panicked
      | RustOutcome.ok uG =>
        match Point.mul a v.value P with
        | RustOutcome.panicked => RustOutcome.panicked
        | RustOutcome.ok vP =>
          match Point.add a uG vP with
          | RustOutcome.panicked => RustOutcome.panicked
          | RustOutcome.ok total =>
            match total.x with
            | some xfe => RustOutcome.ok (xfe.value = r.value)
            | none => RustOutcome.ok false

/-! ## Serialization layer (serialization.rs) -/

/-- Minimal big-endian base-256 digits of a non-negative integer, the
embedding of `Integer::to_digits::<u8>(Order::MsfBe)`; the digits of 0
are the empty sequence.  Fuel-indexed; one unit per produced byte. -/
def toDigitsAux : Nat → Nat → List Nat → List Nat
  | 0, _, acc => acc
  | f+1, n, acc => if n = 0 then acc else toDigitsAux f (n / 256) (n % 256 :: acc)

/-- Rust `Integer::to_digits::<u8>(Order::MsfBe)`. -/
def toDigits (v : Int) : List Nat := toDigitsAux (v.toNat + 1) v.toNat []

/-- Big-endian byte-sequence to integer conversion, the embedding of
`Integer::from_digits::<u8>(Order::MsfBe)` / `assign_digits(Order::Msf)`. -/
def intOfBytes (l : List Nat) : Int :=
  l.foldl (fun acc b => acc * 256 + (b : Int)) 0

/-- Rust `PublicKeySerialization::as_sec` for `Point`: `0x04` then the
minimal big-endian digits of both coordinates (the `unwrap` calls panic
on the identity point). -/
def as_sec (P : Point) : RustOutcome (List Nat) :=
  match P.x, P.y with
  | some xfe, some yfe => RustOutcome.ok (4 :: (toDigits xfe.value ++ toDigits yfe.value))
  | _, _ => RustOutcome.panicked

/-- Rust `PublicKeySerialization::as_compressed_sec` for `Point`: parity
prefix then the minimal big-endian digits of x. -/
def as_compressed_sec (P : Point) : RustOutcome (List Nat) :=
  match P.x, P.y with
  | some xfe, some yfe =>
    RustOutcome.ok ((if yfe.value % 2 = 0 then 2 else 3) :: toDigits xfe.value)
  | _, _ => RustOutcome.panicked

/-- Modelled from the spec: `FieldElement::sqrt` is called by
`Point::from_sec` but its definition is not among the sources; section
4.1 of the specification defines it, for a prime with `p ≡ 3 (mod 4)`,
as `sqrt(a) = a^((p+1)/4) mod p`, returning the integer root. -/
def FieldElement.sqrt (a : FieldElement) : Int :=
  powMod a.value ((a.prime + 1) / 4).toNat a.prime

/-- Rust `Point::from_sec` (serialization.rs lines 54-85) for a curve with
base prime `p` and coefficients `a`, `b`: a leading `0x04` selects the
uncompressed path (fixed slices `[1..33]` and `[33..65]`, panicking on
shorter input, then `make_point_integral(..).unwrap()`); any other
leading byte selects the compressed path, with even parity exactly for
prefix `0x02`; empty input panics on `data[0]`. -/
def from_sec (p a b : Int) (data : List Nat) : RustOutcome Point :=
  match data with
  | [] => RustOutcome.panicked
  | d0 :: rest =>
    if d0 = 4 then
      if data.length < 65 then RustOutcome.panicked
      else
        let x := intOfBytes (rest.take 32)
        let y := intOfBytes ((rest.drop 32).take 32)
        match make_point_integral p a b x y with
        | Except.ok pt => RustOutcome.ok pt
        | Except.error _ => RustOutcome.panicked
    else
      let isEven := d0 = 2
      let x := FieldElement.new (intOfBytes rest) p
      let alpha := FieldElement.new (x.value ^ 3 + b) p
      let beta := alpha.sqrt
      let evenBeta := if beta % 2 = 0 then FieldElement.new beta p
        else FieldElement.new (p - beta) p
      let oddBeta := if beta % 2 = 0 then FieldElement.new (p - beta) p
        else FieldElement.new beta p
      RustOutcome.ok ⟨some x, some (if isEven then evenBeta else oddBeta)⟩

/-! ## RFC 6979 nonce generation (ecdsa.rs lines 135-185)

The SHA-256 and HMAC-SHA-256 collaborators are out of scope for the
sources (byte-function interfaces); the generator is embedded
parametrically in them.  The unbounded Rust `loop` is embedded with
fuel; `none` means the fuel was exhausted while the Rust loop would
still be running. -/

/-- The `loop` body of `nonce_generator_rfc6979`: compute `v = HMAC_K(v)`,
append `v` to the accumulator `t`, convert `v` (not `t`) to an integer,
return it if `1 ≤ value < order`, otherwise rekey and continue. -/
def nonceLoop (hmac : List Nat → List Nat → List Nat) (order : Int) :
    Nat → List Nat → List Nat → List Nat → Option Int
  | 0, _, _, _ => none
  | fuel+1, k, v, t =>
    let v1 := hmac k v
    let t1 := t ++ v1
    let result := intOfBytes v1
    if 1 ≤ result ∧ result < order then some result
    else
      let k1 := hmac k (v1 ++ [0])
      let v2 := hmac k1 v1
      nonceLoop hmac order fuel k1 v2 t1

/-- Rust `nonce_generator_rfc6979`: initializes `v = 0x01 × 32`,
`k = 0x00 × 32`, rekeys with the private key bytes and message hash,
then runs the loop. -/
def nonce_generator_rfc6979 (hmac : List Nat → List Nat → List Nat)
    (sha256 : List Nat → List Nat)
    (message private_key : List Nat) (curve_order : Int) (fuel : Nat) : Option Int :=
  let h1 := sha256 message
  let v := List.replicate 32 1
  let k := List.replicate 32 0
  let k1 := hmac k (v ++ [0] ++ private_key ++ h1)
  let v1 := hmac k1 v
  nonceLoop hmac curve_order fuel k1 v1 []

/-- Instrumented copy of the loop that also returns the accumulator `t`
as of the returning iteration; `nonceLoopT_fst` below proves it computes
the same result as `nonceLoop`. -/
def nonceLoopT (hmac : List Nat → List Nat → List Nat) (order : Int) :
    Nat → List Nat → List Nat → List Nat → Option (Int × List Nat)
  | 0, _, _, _ => none
  | fuel+1, k, v, t =>
    let v1 := hmac k v
    let t1 := t ++ v1
    let result := intOfBytes v1
    if 1 ≤ result ∧ result < order then some (result, t1)
    else
      let k1 := hmac k (v1 ++ [0])
      let v2 := hmac k1 v1
      nonceLoopT hmac order fuel k1 v2 t1

/-- The instrumented nonce generator. -/
def nonce_generator_rfc6979_T (hmac : List Nat → List Nat → List Nat)
    (sha256 : List Nat → List Nat)
    (message private_key : List Nat) (curve_order : Int) (fuel : Nat) :
    Option (Int × List Nat) :=
  let h1 := sha256 message
  let v := List.replicate 32 1
  let k := List.replicate 32 0
  let k1 := hmac k (v ++ [0] ++ private_key ++ h1)
  let v1 := hmac k1 v
  nonceLoopT hmac curve_order fuel k1 v1 []

/-! ## Canonical value computation lemmas -/

/-! ## Claim theorems -/

/-- The y coordinate paired with x = 1 on secp256k1 (a square root of
`1³ + 7 = 8` modulo the base prime): a point whose x coordinate has
31 high-order zero bytes. -/
def c4_y : Int := 29896722852569046015560700294576055776214335159245303116488692907525646231534

/-- Concrete compressed-path output of `from_sec` for the C5
counterexample: the odd root assigned to prefix byte 5. -/
def c5_y : Int := 50963827496501355358210603252497135226159332537351223778668747140855667399507

/-- The square-root candidate computed during compressed SEC decoding
over secp256k1, in the words of the claim: `alpha = x³ + b mod p` for
the decoded `x`, then `beta = alpha^((p+1)/4) mod p`. -/
def c6_beta (xs : List Nat) : Int :=
  powMod (((intOfBytes xs % secp_p) ^ 3 + 7) % secp_p) ((secp_p + 1) / 4).toNat secp_p

/-- The 32 big-endian bytes of the secp256k1 generator x coordinate,
a concrete compressed-SEC payload for the C6 witness. -/
def c6_xs : List Nat :=
  [121, 190, 102, 126, 249, 220, 187, 172, 85, 160, 98, 149, 206, 135, 11, 7,
   2, 155, 252, 219, 45, 206, 40, 217, 89, 242, 129, 91, 22, 248, 23, 152]

/-- A concrete deterministic stand-in for the out-of-scope HMAC-SHA256
collaborator, chosen so that the first nonce candidate falls outside
the admissible range and the loop takes a second iteration. -/
def myHmac (k m : List Nat) : List Nat :=
  if m.length = 33 then [10]
  else if k = [10] ∧ m = List.replicate 32 1 then [20]
  else if k = [10] ∧ m = [20] then [200]
  else if k = [10] ∧ m = [200, 0] then [30]
  else if k = [30] ∧ m = [200] then [40]
  else if k = [30] ∧ m = [40] then [7]
  else [0]

/-- A concrete stand-in for the out-of-scope SHA-256 collaborator. -/
def mySha (_ : List Nat) : List Nat := []

theorem emod_mul_emod_two (m x y : Int) : ((x % m) * (y % m)) % m = (x * y) % m :=
  (Int.mul_emod x y m).symm

theorem powModAux_eq (m : Int) (hm : 0 < m) :
    ∀ f e b acc, e < f → powModAux f b e m acc = (acc * b ^ e) % m := by
  intro f
  induction f with
  | zero => intro e b acc he; exact absurd he (Nat.not_lt_zero e)
  | succ f ih =>
    intro e b acc he
    by_cases h0 : e = 0
    · subst h0; simp [powModAux]
    · have hrec : e / 2 < f := by omega
      simp only [powModAux, h0, if_false, ite_self]
      rw [ih (e / 2) ((b * b) % m) (if e % 2 = 1 then (acc * b) % m else acc) hrec]
      have hpow : ((b * b) % m) ^ (e / 2) % m = (b ^ (e / 2) * b ^ (e / 2)) % m := by
        have h1 : ((b * b) % m) ^ (e / 2) % m = (b * b) ^ (e / 2) % m :=
          Int.ModEq.pow (e / 2) (Int.emod_emod_of_dvd _ dvd_rfl)
        rw [h1, mul_pow]
      by_cases hpar : e % 2 = 1
      · simp only [hpar, if_true]
        have he2 : e = e / 2 + e / 2 + 1 := by omega
        calc ((acc * b) % m * ((b * b) % m) ^ (e / 2)) % m
            = ((acc * b) % m % m * (((b * b) % m) ^ (e / 2) % m)) % m := by
              rw [← Int.mul_emod]
          _ = ((acc * b) % m * ((b ^ (e / 2) * b ^ (e / 2)) % m)) % m := by
              rw [Int.emod_emod_of_dvd _ dvd_rfl, hpow]
          _ = ((acc * b) * (b ^ (e / 2) * b ^ (e / 2))) % m := by
              rw [emod_mul_emod_two]
          _ = (acc * b ^ e) % m := by
              conv_rhs => rw [he2]
              rw [pow_succ, pow_add]
              ring_nf
      · simp only [hpar, if_false]
        have he2 : e = e / 2 + e / 2 := by omega
        calc (acc * ((b * b) % m) ^ (e / 2)) % m
            = (acc % m * (((b * b) % m) ^ (e / 2) % m)) % m := by
              rw [← Int.mul_emod]
          _ = (acc % m * ((b ^ (e / 2) * b ^ (e / 2)) % m)) % m := by rw [hpow]
          _ = (acc * (b ^ (e / 2) * b ^ (e / 2))) % m := by rw [emod_mul_emod_two]
          _ = (acc * b ^ e) % m := by
              conv_rhs => rw [he2]
              rw [pow_add]

theorem powMod_eq (a : Int) (e : Nat) (m : Int) (hm : 0 < m) :
    powMod a e m = (a ^ e) % m := by
  unfold powMod
  rw [powModAux_eq m hm (e + 1) e a 1 (Nat.lt_succ_self e), one_mul]

theorem powMod_nonneg (a : Int) (e : Nat) (m : Int) (hm : 0 < m) :
    0 ≤ powMod a e m := by
  rw [powMod_eq a e m hm]
  exact Int.emod_nonneg _ (by omega)

theorem powMod_lt (a : Int) (e : Nat) (m : Int) (hm : 0 < m) :
    powMod a e m < m := by
  rw [powMod_eq a e m hm]
  exact Int.emod_lt_of_pos _ hm

theorem egcdAux_spec (A B : Nat) :
    ∀ (fuel r0 r1 : Nat) (s0 t0 s1 t1 : Int), r1 < fuel →
      (r0 : Int) = s0 * A + t0 * B →
      (r1 : Int) = s1 * A + t1 * B →
      (egcdAux fuel r0 s0 t0 r1 s1 t1).1 = Nat.gcd r0 r1 ∧
      ((egcdAux fuel r0 s0 t0 r1 s1 t1).1 : Int) =
        (egcdAux fuel r0 s0 t0 r1 s1 t1).2.1 * A +
        (egcdAux fuel r0 s0 t0 r1 s1 t1).2.2 * B := by
  intro fuel
  induction fuel with
  | zero => intro r0 r1 s0 t0 s1 t1 h; omega
  | succ fuel ih =>
    intro r0 r1 s0 t0 s1 t1 hlt h0 h1
    by_cases hz : r1 = 0
    · subst hz
      simp [egcdAux, h0]
    · have hmodlt : r0 % r1 < r1 := Nat.mod_lt r0 (Nat.pos_of_ne_zero hz)
      have hfuel : r0 % r1 < fuel := by omega
      have hmod : ((r0 % r1 : Nat) : Int) =
          (s0 - (r0 / r1 : Nat) * s1) * A + (t0 - (r0 / r1 : Nat) * t1) * B := by
        have hdm : r1 * (r0 / r1) + r0 % r1 = r0 := Nat.div_add_mod r0 r1
        have hdmz : (r1 : Int) * ((r0 / r1 : Nat) : Int) + ((r0 % r1 : Nat) : Int) =
            (r0 : Int) := by exact_mod_cast hdm
        have hsub : ((r0 % r1 : Nat) : Int) = (r0 : Int) - ((r0 / r1 : Nat) : Int) * (r1 : Int) := by
          linarith [hdmz]
        rw [hsub, h0, h1]
        ring
      have hrec := ih r1 (r0 % r1) s1 t1 (s0 - (r0 / r1 : Nat) * s1)
        (t0 - (r0 / r1 : Nat) * t1) hfuel h1 hmod
      have hgcd : Nat.gcd r1 (r0 % r1) = Nat.gcd r0 r1 := by
        rw [Nat.gcd_comm r1 (r0 % r1), ← Nat.gcd_rec r1 r0, Nat.gcd_comm r1 r0]
      simp only [egcdAux, hz, if_false]
      exact ⟨by rw [hrec.1, hgcd], hrec.2⟩

theorem egcd_spec (a b : Nat) :
    (egcd a b).1 = Nat.gcd a b ∧
    ((egcd a b).1 : Int) = (egcd a b).2.1 * a + (egcd a b).2.2 * b := by
  have := egcdAux_spec a b (b + 1) a b 1 0 0 1 (Nat.lt_succ_self b)
    (by ring) (by ring)
  exact this

theorem gcd_emod_left (v m : Int) : Int.gcd (v % m) m = Int.gcd v m := by
  apply Nat.dvd_antisymm
  · have d1 : (Int.gcd (v % m) m : Int) ∣ v % m := Int.gcd_dvd_left
    have d2 : (Int.gcd (v % m) m : Int) ∣ m := Int.gcd_dvd_right
    have h1 : (Int.gcd (v % m) m : Int) ∣ v := by
      have hv : v % m + m * (v / m) = v := Int.emod_add_ediv v m
      have hd : (Int.gcd (v % m) m : Int) ∣ v % m + m * (v / m) :=
        dvd_add d1 (dvd_trans d2 (dvd_mul_right m (v / m)))
      rwa [hv] at hd
    exact Int.natCast_dvd_natCast.mp (Int.dvd_gcd h1 d2)
  · have d1 : (Int.gcd v m : Int) ∣ v := Int.gcd_dvd_left
    have d2 : (Int.gcd v m : Int) ∣ m := Int.gcd_dvd_right
    have h1 : (Int.gcd v m : Int) ∣ v % m := by
      have hv : v % m = v - m * (v / m) := by
        have := Int.emod_add_ediv v m
        omega
      rw [hv]
      exact dvd_sub d1 (dvd_trans d2 (dvd_mul_right m (v / m)))
    exact Int.natCast_dvd_natCast.mp (Int.dvd_gcd h1 d2)

theorem modInv_correct (v m : Int) (hm : 1 < m) (h : Int.gcd v m = 1) :
    (v * modInv v m) % m = 1 ∧ 0 ≤ modInv v m ∧ modInv v m < m := by
  have hm0 : (0 : Int) < m := by omega
  have hmod_nonneg : 0 ≤ v % m := Int.emod_nonneg v (by omega)
  have hcast : (((v % m).natAbs : Nat) : Int) = v % m := Int.natAbs_of_nonneg hmod_nonneg
  have hmt : ((m.natAbs : Nat) : Int) = m := Int.natAbs_of_nonneg (le_of_lt hm0)
  have hgcd_nat : Nat.gcd (v % m).natAbs m.natAbs = 1 := by
    have h1 : Int.gcd (v % m) m = 1 := by rw [gcd_emod_left]; exact h
    exact h1
  obtain ⟨hg, hbez⟩ := egcd_spec (v % m).natAbs m.natAbs
  rw [hgcd_nat] at hg
  rw [hg] at hbez
  rw [hcast, hmt] at hbez
  refine ⟨?_, Int.emod_nonneg _ (by omega), Int.emod_lt_of_pos _ hm0⟩
  unfold modInv
  have step1 : (v * ((egcd (v % m).natAbs m.natAbs).2.1 % m)) % m =
      (v * (egcd (v % m).natAbs m.natAbs).2.1) % m := by
    conv_lhs => rw [Int.mul_emod]
    conv_rhs => rw [Int.mul_emod]
    rw [Int.emod_emod_of_dvd _ dvd_rfl]
  have step2 : (v * (egcd (v % m).natAbs m.natAbs).2.1) % m =
      ((v % m) * (egcd (v % m).natAbs m.natAbs).2.1) % m := by
    conv_lhs => rw [Int.mul_emod]
    conv_rhs => rw [Int.mul_emod]
    rw [Int.emod_emod_of_dvd _ dvd_rfl]
  have hxv : (v % m) * (egcd (v % m).natAbs m.natAbs).2.1 =
      1 + m * (-(egcd (v % m).natAbs m.natAbs).2.2) := by
    linear_combination (-1 : Int) * hbez
  rw [step1, step2, hxv, Int.add_mul_emod_self_left]
  exact Int.emod_eq_of_lt (by norm_num) (by omega)

theorem value_of_bounds (p v : Int) (hp : 0 < p) :
    0 ≤ value_of p v ∧ value_of p v < p := by
  unfold value_of
  by_cases h : v < 0 ∨ v ≥ p
  · simp only [h, if_true]
    exact ⟨Int.emod_nonneg v (by omega), Int.emod_lt_of_pos v hp⟩
  · simp only [h, if_false]
    push_neg at h
    omega

theorem value_of_eq_emod (p v : Int) (hp : 0 < p) : value_of p v = v % p := by
  unfold value_of
  by_cases h : v < 0 ∨ v ≥ p
  · simp [h]
  · simp only [h, if_false]
    push_neg at h
    exact (Int.emod_eq_of_lt h.1 h.2).symm

theorem value_of_self (p v : Int) (h0 : 0 ≤ v) (h1 : v < p) : value_of p v = v := by
  unfold value_of
  simp [not_lt.mpr h0, not_le.mpr h1]

/-- Fuel adequacy: the result of the double-and-add loop does not depend
on the fuel once the fuel strictly dominates the coefficient, so the
fuel-indexed embedding computes the same function as the unbounded Rust
loop. -/
theorem Point.mulLoop_fuel_irrelevant (a : Int) :
    ∀ (f g : Nat) (coeff : Int) (cur res : Point), coeff.toNat < f → coeff.toNat < g →
      Point.mulLoop a f coeff cur res = Point.mulLoop a g coeff cur res := by
  intro f
  induction f with
  | zero => intro g coeff cur res hf hg; exact absurd hf (Nat.not_lt_zero _)
  | succ f ih =>
    intro g coeff cur res hf hg
    match g with
    | 0 => exact absurd hg (Nat.not_lt_zero _)
    | g+1 =>
      simp only [Point.mulLoop]
      by_cases hpos : coeff > 0
      · simp only [hpos, if_true]
        have hdiv : (coeff / 2).toNat < f := by
          have h1 : coeff / 2 < coeff := by omega
          have h2 : 0 ≤ coeff / 2 := by omega
          omega
        have hdiv2 : (coeff / 2).toNat < g := by
          have h1 : coeff / 2 < coeff := by omega
          have h2 : 0 ≤ coeff / 2 := by omega
          omega
        cases hstep : (if coeff % 2 = 1 then Point.add a res cur else RustOutcome.ok res) with
        | panicked => rfl
        | ok result' =>
          cases hdbl : Point.add a cur cur with
          | panicked => rfl
          | ok current' => exact ih g (coeff / 2) current' result' hdiv hdiv2
      · simp [hpos]

theorem Point.wf_infinity : Point.wf Point.infinity := rfl

theorem Point.add_wf (a : Int) (P Q R : Point) (hP : P.wf) (hQ : Q.wf)
    (h : Point.add a P Q = RustOutcome.ok R) : R.wf := by
  unfold Point.add at h
  repeat' split at h
  all_goals cases h
  all_goals first | exact hP | exact hQ | rfl

theorem Point.mulLoop_wf (a : Int) :
    ∀ (f : Nat) (coeff : Int) (cur res R : Point), cur.wf → res.wf →
      Point.mulLoop a f coeff cur res = RustOutcome.ok R → R.wf := by
  intro f
  induction f with
  | zero =>
    intro coeff cur res R hcur hres h
    simp only [Point.mulLoop] at h
    cases h
    exact hres
  | succ f ih =>
    intro coeff cur res R hcur hres h
    simp only [Point.mulLoop] at h
    by_cases hpos : coeff > 0
    · simp only [hpos, if_true] at h
      cases hstep : (if coeff % 2 = 1 then Point.add a res cur else RustOutcome.ok res) with
      | panicked => rw [hstep] at h; cases h
      | ok result' =>
        rw [hstep] at h
        have hres' : result'.wf := by
          by_cases hodd : coeff % 2 = 1
          · simp only [hodd, if_true] at hstep
            exact Point.add_wf a res cur result' hres hcur hstep
          · simp only [hodd, if_false] at hstep
            cases hstep
            exact hres
        cases hdbl : Point.add a cur cur with
        | panicked => rw [hdbl] at h; cases h
        | ok current' =>
          rw [hdbl] at h
          exact ih (coeff / 2) current' result' R
            (Point.add_wf a cur cur current' hcur hcur hdbl) hres' h
    · simp only [hpos, if_false] at h
      cases h
      exact hres

theorem Point.mul_wf (a coeff : Int) (P R : Point) (hP : P.wf)
    (h : Point.mul a coeff P = RustOutcome.ok R) : R.wf :=
  Point.mulLoop_wf a (coeff.toNat + 1) coeff P Point.infinity R hP Point.wf_infinity h

/-- For a well-formed point, absence of the x coordinate is exactly
being the identity. -/
theorem Point.wf_x_none_iff (P : Point) (hP : P.wf) :
    P.x = none ↔ P.is_identity = true := by
  rw [Point.is_identity]
  cases hx : P.x with
  | none =>
    rw [Point.wf, hx] at hP
    simp at hP
    simp [Option.isNone_iff_eq_none.mpr hP]
  | some v =>
    rw [Point.wf, hx] at hP
    simp at hP
    cases hy : P.y with
    | none => rw [hy] at hP; simp at hP
    | some w => simp

/-- Sanity check tying the embedded constants together: the secp256k1
generator satisfies the curve equation. -/
theorem secp_G_on_curve :
    on_curve 0 7 ⟨secp_gx, secp_p⟩ ⟨secp_gy, secp_p⟩ = true := by decide

theorem nonceLoopT_fst (hmac : List Nat → List Nat → List Nat) (order : Int) :
    ∀ (fuel : Nat) (k v t : List Nat),
      (nonceLoopT hmac order fuel k v t).map Prod.fst = nonceLoop hmac order fuel k v t := by
  intro fuel
  induction fuel with
  | zero => intro k v t; rfl
  | succ fuel ih =>
    intro k v t
    simp only [nonceLoopT, nonceLoop]
    by_cases h : 1 ≤ intOfBytes (hmac k v) ∧ intOfBytes (hmac k v) < order
    · simp [h]
    · simp only [h, if_false]
      exact ih _ _ _

theorem fe_new_val (v p : Int) (hp : 0 < p) :
    FieldElement.new v p = ⟨v % p, p⟩ := by
  unfold FieldElement.new
  rw [value_of_eq_emod p v hp]

theorem fe_pow_val (v p : Int) (hp : 1 < p) (e : Nat) :
    FieldElement.pow ⟨v, p⟩ e = ⟨(v ^ e) % p, p⟩ := by
  unfold FieldElement.pow
  have hp0 : (0 : Int) < p := by omega
  rw [if_neg (show ¬((⟨v, p⟩ : FieldElement).prime = 1) by show ¬(p = 1); omega)]
  show FieldElement.new (powMod v e p) p = _
  rw [fe_new_val _ _ hp0, powMod_eq _ _ _ hp0, Int.emod_emod_of_dvd _ dvd_rfl]

theorem fe_add_val (u w p : Int) (hp : 0 < p) :
    FieldElement.add ⟨u, p⟩ ⟨w, p⟩ = ⟨(u + w) % p, p⟩ := by
  unfold FieldElement.add
  exact fe_new_val _ _ hp

theorem fe_sub_val (u w p : Int) (hp : 0 < p) :
    FieldElement.sub ⟨u, p⟩ ⟨w, p⟩ = ⟨(u - w) % p, p⟩ := by
  unfold FieldElement.sub
  exact fe_new_val _ _ hp

theorem fe_mul_val (u w p : Int) (hp : 0 < p) :
    FieldElement.mul ⟨u, p⟩ ⟨w, p⟩ = ⟨(u * w) % p, p⟩ := by
  unfold FieldElement.mul
  exact fe_new_val _ _ hp

theorem fe_intMul_val (i u p : Int) (hp : 0 < p) :
    FieldElement.intMul i ⟨u, p⟩ = ⟨(i * u) % p, p⟩ := by
  unfold FieldElement.intMul
  exact fe_new_val _ _ hp

theorem fe_addInt_val (u i p : Int) (hp : 0 < p) :
    FieldElement.addInt ⟨u, p⟩ i = ⟨(u + i) % p, p⟩ := by
  unfold FieldElement.addInt
  exact fe_new_val _ _ hp

/-- The on-curve check is exactly the curve equation modulo the prime. -/
theorem on_curve_iff (p a b : Int) (hp : 1 < p) (xv yv : Int) :
    on_curve a b (⟨xv, p⟩ : FieldElement) ⟨yv, p⟩ = true ↔
      (yv ^ 2) % p = (xv ^ 3 + a * xv + b) % p := by
  have hp0 : (0 : Int) < p := by omega
  unfold on_curve
  rw [fe_pow_val _ _ hp, fe_pow_val _ _ hp, fe_intMul_val _ _ _ hp0,
    fe_add_val _ _ _ hp0, fe_addInt_val _ _ _ hp0]
  simp only [decide_eq_true_eq, FieldElement.mk.injEq, and_true]
  have hc : ((xv ^ 3 % p + (a * xv) % p) % p + b) % p = (xv ^ 3 + a * xv + b) % p := by
    rw [← Int.add_emod, Int.emod_add_emod]
  rw [hc]

/-- Claim C10: for every point `P` and every integer scalar `k ≤ 0`, the
scalar multiplication `k · P` returns the identity point (point at
infinity) without error, because the double-and-add loop body never
executes. -/
theorem c10_nonpositive_scalar_mul (a k : Int) (P : Point) (hk : k ≤ 0) :
    Point.mul a k P = RustOutcome.ok Point.infinity := by
  unfold Point.mul
  rw [Int.toNat_of_nonpos hk]
  simp only [Point.mulLoop]
  rw [if_neg (by omega)]

/-- Witness for C10 at a concrete input: `(-3) · G` on secp256k1. -/
theorem c10_witness :
    (-3 : Int) ≤ 0 ∧ Point.mul 0 (-3) secp_G = RustOutcome.ok Point.infinity :=
  ⟨by decide, c10_nonpositive_scalar_mul 0 (-3) secp_G (by decide)⟩

/-- Claim C9: every `FieldElement` constructed by `new` or returned by
`add`, `sub`, `mul`, `div` or `pow` has its value in the canonical range
`[0, prime)`, because every constructor normalizes through `value_of`. -/
theorem c9_field_element_range (p : Int) (hp : 0 < p) (v : Int) (a b c : FieldElement)
    (ha : a.prime = p) (e : Nat) :
    (0 ≤ (FieldElement.new v p).value ∧ (FieldElement.new v p).value < p) ∧
    (0 ≤ (a.add b).value ∧ (a.add b).value < p) ∧
    (0 ≤ (a.sub b).value ∧ (a.sub b).value < p) ∧
    (0 ≤ (a.mul b).value ∧ (a.mul b).value < p) ∧
    (a.div b = RustOutcome.ok c → 0 ≤ c.value ∧ c.value < p) ∧
    (0 ≤ (a.pow e).value ∧ (a.pow e).value < p) := by
  subst ha
  refine ⟨value_of_bounds _ _ hp, value_of_bounds _ _ hp, value_of_bounds _ _ hp,
    value_of_bounds _ _ hp, ?_, ?_⟩
  · intro h
    unfold FieldElement.div at h
    cases hinv : invert b.value a.prime with
    | none => rw [hinv] at h; cases h
    | some inv =>
      rw [hinv] at h
      cases h
      exact value_of_bounds _ _ hp
  · unfold FieldElement.pow FieldElement.new
    by_cases h1 : a.prime = 1
    · rw [if_pos h1]
      rw [h1] at hp ⊢
      simpa using value_of_bounds 1 0 hp
    · rw [if_neg h1]
      exact value_of_bounds _ _ hp

/-- Witness for C9 at concrete inputs over the 7-element field. -/
theorem c9_witness :
    (0 : Int) < 7 ∧ (⟨3, 7⟩ : FieldElement).prime = 7 ∧
    ((0 ≤ (FieldElement.new (-9) 7).value ∧ (FieldElement.new (-9) 7).value < 7) ∧
     (0 ≤ ((⟨3, 7⟩ : FieldElement).add ⟨5, 7⟩).value ∧
       ((⟨3, 7⟩ : FieldElement).add ⟨5, 7⟩).value < 7) ∧
     (0 ≤ ((⟨3, 7⟩ : FieldElement).sub ⟨5, 7⟩).value ∧
       ((⟨3, 7⟩ : FieldElement).sub ⟨5, 7⟩).value < 7) ∧
     (0 ≤ ((⟨3, 7⟩ : FieldElement).mul ⟨5, 7⟩).value ∧
       ((⟨3, 7⟩ : FieldElement).mul ⟨5, 7⟩).value < 7) ∧
     ((⟨3, 7⟩ : FieldElement).div ⟨5, 7⟩ = RustOutcome.ok ⟨2, 7⟩ →
       0 ≤ (⟨2, 7⟩ : FieldElement).value ∧ (⟨2, 7⟩ : FieldElement).value < 7) ∧
     (0 ≤ ((⟨3, 7⟩ : FieldElement).pow 4).value ∧
       ((⟨3, 7⟩ : FieldElement).pow 4).value < 7)) :=
  ⟨by decide, rfl, c9_field_element_range 7 (by decide) (-9) ⟨3, 7⟩ ⟨5, 7⟩ ⟨2, 7⟩ rfl 4⟩

/-- Claim C8 counterexample: dividing by the zero element does not
produce an explicit DivisionByZero failure result; the Rust code reaches
`unreachable!()` and panics (embedded as the `panicked` outcome). -/
theorem c8_counterexample :
    FieldElement.div ⟨1, 19⟩ ⟨0, 19⟩ = RustOutcome.panicked := by decide

/-- Claim C8 amended: division `a / b` terminates abnormally (the
`unreachable!()` panic) exactly when `gcd(b.value, prime) ≠ 1`, and
under a prime modulus with `b` in canonical range exactly when
`b.value = 0`; no explicit DivisionByZero error value is ever returned
to the caller. -/
theorem c8_division_behavior (a b : FieldElement) :
    (a.div b = RustOutcome.panicked ↔ Int.gcd b.value a.prime ≠ 1) ∧
    (Nat.Prime a.prime.natAbs → 0 ≤ b.value → b.value < a.prime →
      (a.div b = RustOutcome.panicked ↔ b.value = 0)) := by
  have hmain : a.div b = RustOutcome.panicked ↔ Int.gcd b.value a.prime ≠ 1 := by
    unfold FieldElement.div invert
    by_cases hg : Int.gcd b.value a.prime = 1
    · rw [if_pos hg]
      simp [hg]
    · rw [if_neg hg]
      simp [hg]
  refine ⟨hmain, fun hprime hb0 hblt => ?_⟩
  rw [hmain]
  constructor
  · intro hg
    by_contra hbz
    have hbpos : 0 < b.value := lt_of_le_of_ne hb0 (Ne.symm hbz)
    have hdvd : ¬(a.prime.natAbs ∣ b.value.natAbs) := by
      intro hd
      have h1 : a.prime.natAbs ≤ b.value.natAbs :=
        Nat.le_of_dvd (by omega) hd
      have h2 : b.value.natAbs < a.prime.natAbs := by omega
      omega
    have hco : Nat.Coprime a.prime.natAbs b.value.natAbs :=
      (Nat.Prime.coprime_iff_not_dvd hprime).mpr hdvd
    apply hg
    unfold Int.gcd
    exact Nat.Coprime.gcd_eq_one (Nat.Coprime.symm hco)
  · intro hbz
    rw [hbz]
    intro hg
    have hple : 2 ≤ a.prime.natAbs := Nat.Prime.two_le hprime
    rw [Int.gcd] at hg
    simp at hg
    omega

/-- Witness for the C8 amended theorem: the division of `3/0` in the
19-element field panics, derived through the prime-modulus clause. -/
theorem c8_witness :
    FieldElement.div ⟨3, 19⟩ ⟨0, 19⟩ = RustOutcome.panicked :=
  ((c8_division_behavior ⟨3, 19⟩ ⟨0, 19⟩).2 (by norm_num) (by norm_num)
    (by norm_num)).mpr rfl

/-- Claim C7 counterexample: `make_point` with exactly one coordinate
present does not fail; it returns the identity point (curve
`y² = x³ + 7` over the 223-element field). -/
theorem c7_counterexample :
    make_point 223 0 7 (some 1) none = Except.ok Point.infinity := rfl

/-- Claim C7 amended: with both coordinates present `make_point`
validates the curve equation and fails with the point-not-on-curve
error otherwise; with both coordinates absent it returns the identity;
with exactly one coordinate present it also returns the identity rather
than failing. -/
theorem c7_make_point_cases (p a b : Int) (hp : 1 < p) (x y : Int) :
    (make_point p a b (some x) (some y) =
      if (y % p) ^ 2 % p = ((x % p) ^ 3 + a * (x % p) + b) % p
      then Except.ok ⟨some ⟨x % p, p⟩, some ⟨y % p, p⟩⟩
      else Except.error "Point is not on curve") ∧
    make_point p a b none none = Except.ok Point.infinity ∧
    make_point p a b (some x) none = Except.ok Point.infinity ∧
    make_point p a b none (some y) = Except.ok Point.infinity := by
  have hp0 : (0 : Int) < p := by omega
  refine ⟨?_, rfl, rfl, rfl⟩
  show make_point_integral p a b x y = _
  unfold make_point_integral
  rw [fe_new_val _ _ hp0, fe_new_val _ _ hp0]
  by_cases hoc : (y % p) ^ 2 % p = ((x % p) ^ 3 + a * (x % p) + b) % p
  · rw [if_pos ((on_curve_iff p a b hp _ _).mpr hoc), if_pos hoc]
  · rw [if_neg (fun hc => hoc ((on_curve_iff p a b hp _ _).mp hc)), if_neg hoc]

/-- Witness for the C7 amended theorem on the secp256k1 test curve
`y² = x³ + 7 mod 223` at the on-curve point `(192, 105)`. -/
theorem c7_witness :
    (make_point 223 0 7 (some 192) (some 105) =
      if ((105 : Int) % 223) ^ 2 % 223 =
          (((192 : Int) % 223) ^ 3 + 0 * ((192 : Int) % 223) + 7) % 223
      then Except.ok ⟨some ⟨192 % 223, 223⟩, some ⟨105 % 223, 223⟩⟩
      else Except.error "Point is not on curve") ∧
    make_point 223 0 7 none none = Except.ok Point.infinity ∧
    make_point 223 0 7 (some 192) none = Except.ok Point.infinity ∧
    make_point 223 0 7 none (some 105) = Except.ok Point.infinity :=
  c7_make_point_cases 223 0 7 (by norm_num) 192 105

/-- Claim C4 (code bug evaluation): the on-curve secp256k1 point with
x = 1 SEC-encodes, through `as_sec` and `as_compressed_sec`, to 34 and
2 bytes respectively, because `to_digits` emits minimal big-endian
bytes with no 32-byte zero padding. -/
theorem c4_sec_encoding_unpadded :
    on_curve 0 7 ⟨1, secp_p⟩ ⟨c4_y, secp_p⟩ = true ∧
    (∃ l, as_sec ⟨some ⟨1, secp_p⟩, some ⟨c4_y, secp_p⟩⟩ = RustOutcome.ok l ∧
      l.length = 34 ∧ l.length ≠ 65) ∧
    (∃ l, as_compressed_sec ⟨some ⟨1, secp_p⟩, some ⟨c4_y, secp_p⟩⟩ = RustOutcome.ok l ∧
      l.length = 2 ∧ l.length ≠ 33) := by
  refine ⟨by decide, ⟨_, rfl, by decide, by decide⟩, ⟨_, rfl, by decide, by decide⟩⟩

/-- Claim C5 counterexample: a leading byte of 0x05 (not 0x02/0x03/0x04)
does not fail with an InvalidEncoding error; `from_sec` constructs and
returns a point through the compressed-decoding path. -/
theorem c5_counterexample :
    from_sec secp_p 0 7 (5 :: List.replicate 32 0) =
      RustOutcome.ok ⟨some ⟨0, secp_p⟩, some ⟨c5_y, secp_p⟩⟩ := by decide

/-- Claim C5 amended: SEC decoding performs no prefix or length
validation and has no InvalidEncoding failure: every input whose
leading byte differs from 0x04 is decoded through the compressed path
and yields a point; an input with leading byte 0x04 shorter than 65
bytes panics with an out-of-range slice index; empty input panics on
`data[0]`. -/
theorem c5_no_invalid_encoding (p a b : Int) (d0 : Nat) (xs : List Nat)
    (data : List Nat) (hd : d0 ≠ 4) (h4 : data.head? = some 4)
    (hlen : data.length < 65) :
    (∃ pt, from_sec p a b (d0 :: xs) = RustOutcome.ok pt) ∧
    from_sec p a b data = RustOutcome.panicked ∧
    from_sec p a b [] = RustOutcome.panicked := by
  refine ⟨?_, ?_, rfl⟩
  · simp only [from_sec]
    rw [if_neg hd]
    exact ⟨_, rfl⟩
  · cases data with
    | nil => cases h4
    | cons d rest =>
      have hd4 : d = 4 := by
        simp only [List.head?] at h4
        exact Option.some.inj h4
      simp only [from_sec]
      rw [if_pos hd4, if_pos hlen]

/-- Witness for the C5 amended theorem at concrete inputs. -/
theorem c5_witness :
    (∃ pt, from_sec secp_p 0 7 (9 :: [1, 2]) = RustOutcome.ok pt) ∧
    from_sec secp_p 0 7 [4, 0, 0] = RustOutcome.panicked ∧
    from_sec secp_p 0 7 [] = RustOutcome.panicked :=
  c5_no_invalid_encoding secp_p 0 7 9 [1, 2] [4, 0, 0] (by decide) rfl (by decide)

/-- Claim C6: decoding a compressed SEC input with leading byte 0x02 or
0x03 and 32 bytes of x recovers y by computing `alpha = x³ + b mod p`,
extracting the root `beta = alpha^((p+1)/4) mod p` (the spec-modelled
`FieldElement::sqrt`, valid because `p ≡ 3 mod 4`), and selecting
between `beta` and `p − beta` the root whose parity matches the prefix
(0x02 even, 0x03 odd), whenever the root is nonzero. -/
theorem c6_compressed_decoding (d0 : Nat) (xs : List Nat)
    (hd : d0 = 2 ∨ d0 = 3) (hlen : xs.length = 32) :
    ∃ yfe : FieldElement,
      from_sec secp_p 0 7 (d0 :: xs) =
        RustOutcome.ok ⟨some ⟨intOfBytes xs % secp_p, secp_p⟩, some yfe⟩ ∧
      yfe.prime = secp_p ∧
      (yfe.value = c6_beta xs ∨ yfe.value = (secp_p - c6_beta xs) % secp_p) ∧
      (c6_beta xs ≠ 0 → (yfe.value % 2 = 0 ↔ d0 = 2)) := by
  have hp1 : (1 : Int) < secp_p := by norm_num [secp_p]
  have hp0 : (0 : Int) < secp_p := by omega
  have hodd : secp_p % 2 = 1 := by norm_num [secp_p]
  have hd4 : d0 ≠ 4 := by rcases hd with h | h <;> omega
  have hb0 : 0 ≤ c6_beta xs := powMod_nonneg _ _ _ hp0
  have hb1 : c6_beta xs < secp_p := powMod_lt _ _ _ hp0
  simp only [from_sec]
  rw [if_neg hd4]
  have hx : FieldElement.new (intOfBytes xs) secp_p =
      ⟨intOfBytes xs % secp_p, secp_p⟩ := fe_new_val _ _ hp0
  rw [hx]
  have hcode : FieldElement.sqrt
      (FieldElement.new ((⟨intOfBytes xs % secp_p, secp_p⟩ : FieldElement).value ^ 3 + 7) secp_p) =
      c6_beta xs := by
    rw [fe_new_val _ _ hp0]
    unfold FieldElement.sqrt c6_beta
    rfl
  rw [hcode]
  have hmodself : c6_beta xs % secp_p = c6_beta xs := Int.emod_eq_of_lt hb0 hb1
  refine ⟨_, rfl, ?_, ?_, ?_⟩
  · split <;> split <;> rfl
  · split
    · split
      · left
        show value_of secp_p (c6_beta xs) = _
        rw [value_of_eq_emod _ _ hp0, hmodself]
      · right
        show value_of secp_p (secp_p - c6_beta xs) = _
        rw [value_of_eq_emod _ _ hp0]
    · split
      · right
        show value_of secp_p (secp_p - c6_beta xs) = _
        rw [value_of_eq_emod _ _ hp0]
      · left
        show value_of secp_p (c6_beta xs) = _
        rw [value_of_eq_emod _ _ hp0, hmodself]
  · intro hbz
    have hsubrange : (secp_p - c6_beta xs) % secp_p = secp_p - c6_beta xs :=
      Int.emod_eq_of_lt (by omega) (by omega)
    split
    next h2 =>
      split
      next hpar =>
        show value_of secp_p (c6_beta xs) % 2 = 0 ↔ d0 = 2
        rw [value_of_eq_emod _ _ hp0, hmodself]
        constructor
        · intro _; exact h2
        · intro _; exact hpar
      next hpar =>
        show value_of secp_p (secp_p - c6_beta xs) % 2 = 0 ↔ d0 = 2
        rw [value_of_eq_emod _ _ hp0, hsubrange]
        constructor
        · intro _; exact h2
        · intro _; omega
    next h2 =>
      have h3 : d0 = 3 := by
        rcases hd with h | h
        · exact absurd h h2
        · exact h
      split
      next hpar =>
        show value_of secp_p (secp_p - c6_beta xs) % 2 = 0 ↔ d0 = 2
        rw [value_of_eq_emod _ _ hp0, hsubrange]
        constructor
        · intro hcon; exact absurd (by omega : False) id
        · intro hcon; exact absurd hcon h2
      next hpar =>
        show value_of secp_p (c6_beta xs) % 2 = 0 ↔ d0 = 2
        rw [value_of_eq_emod _ _ hp0, hmodself]
        constructor
        · intro hcon; exact absurd hcon hpar
        · intro hcon; exact absurd hcon h2

/-- Witness for C6 at the compressed encoding of the generator point
(prefix 0x02, x = Gx). -/
theorem c6_witness :
    ((2 : Nat) = 2 ∨ (2 : Nat) = 3) ∧ c6_xs.length = 32 ∧
    (∃ yfe : FieldElement,
      from_sec secp_p 0 7 (2 :: c6_xs) =
        RustOutcome.ok ⟨some ⟨intOfBytes c6_xs % secp_p, secp_p⟩, some yfe⟩ ∧
      yfe.prime = secp_p ∧
      (yfe.value = c6_beta c6_xs ∨ yfe.value = (secp_p - c6_beta c6_xs) % secp_p) ∧
      (c6_beta c6_xs ≠ 0 → (yfe.value % 2 = 0 ↔ (2 : Nat) = 2))) :=
  ⟨Or.inl rfl, by decide, c6_compressed_decoding 2 c6_xs (Or.inl rfl) (by decide)⟩

/-- Claim C3 counterexample: with the concrete collaborators above,
order 100 and fuel 5, the generator returns 7 — the big-endian value of
the latest V = [7] alone — while the accumulator T at the returning
iteration is [200, 7], whose big-endian value 51207 is outside (0, n);
so the implementation does not interpret the full concatenation T and
does not return exactly when 0 < int(T) < n. -/
theorem c3_counterexample :
    nonce_generator_rfc6979 myHmac mySha [] [] 100 5 = some 7 ∧
    nonce_generator_rfc6979_T myHmac mySha [] [] 100 5 = some (7, [200, 7]) ∧
    (7 : Int) ≠ intOfBytes [200, 7] ∧
    ¬(0 < intOfBytes [200, 7] ∧ intOfBytes [200, 7] < 100) := by
  refine ⟨by decide, by decide, by decide, by decide⟩

/-- Claim C3 amended: in every iteration the loop appends the fresh
V = HMAC_K(V) to the accumulator T, but T never influences the result;
the implementation interprets the fresh 32-byte V alone as a big-endian
integer t, returns it exactly when 0 < t < n (the returned value always
satisfies these bounds), and otherwise rekeys with K = HMAC_K(V ‖ 0x00),
recomputes V = HMAC_K(V) under the new key, and repeats. -/
theorem c3_loop_uses_latest_v (hmac : List Nat → List Nat → List Nat) (order : Int) :
    (∀ (fuel : Nat) (k v t t2 : List Nat),
      nonceLoop hmac order fuel k v t = nonceLoop hmac order fuel k v t2) ∧
    (∀ (fuel : Nat) (k v t : List Nat) (c : Int),
      nonceLoop hmac order fuel k v t = some c → 1 ≤ c ∧ c < order) ∧
    (∀ (fuel : Nat) (k v t : List Nat),
      nonceLoop hmac order (fuel + 1) k v t =
        (if 1 ≤ intOfBytes (hmac k v) ∧ intOfBytes (hmac k v) < order
         then some (intOfBytes (hmac k v))
         else nonceLoop hmac order fuel (hmac k (hmac k v ++ [0]))
           (hmac (hmac k (hmac k v ++ [0])) (hmac k v)) (t ++ hmac k v))) := by
  refine ⟨?_, ?_, ?_⟩
  · intro fuel
    induction fuel with
    | zero => intro k v t t2; rfl
    | succ fuel ih =>
      intro k v t t2
      simp only [nonceLoop]
      by_cases h : 1 ≤ intOfBytes (hmac k v) ∧ intOfBytes (hmac k v) < order
      · simp [h]
      · simp only [h, if_false]
        exact ih _ _ _ _
  · intro fuel
    induction fuel with
    | zero => intro k v t c h; cases h
    | succ fuel ih =>
      intro k v t c h
      simp only [nonceLoop] at h
      by_cases hcand : 1 ≤ intOfBytes (hmac k v) ∧ intOfBytes (hmac k v) < order
      · rw [if_pos hcand] at h
        cases h
        exact hcand
      · rw [if_neg hcand] at h
        exact ih _ _ _ _ h
  · intro fuel k v t
    rfl

/-- Witness for the C3 amended theorem: accumulator irrelevance at two
concrete accumulators, and the range property at the concrete run that
returns 7. -/
theorem c3_witness :
    nonceLoop myHmac 100 5 [10] [20] [] = nonceLoop myHmac 100 5 [10] [20] [99, 99] ∧
    ((1 : Int) ≤ 7 ∧ (7 : Int) < 100) :=
  ⟨(c3_loop_uses_latest_v myHmac 100).1 5 [10] [20] [] [99, 99],
   (c3_loop_uses_latest_v myHmac 100).2.1 5 [10] [20] [] 7 (by decide)⟩

/-- Claim C2: when both scalar divisions and all point operations
complete, `verify` returns a boolean (never an error), and the result
is `true` exactly when `total = (z/s)·G + (r/s)·P` is not the identity
point and the raw x value of `total` equals the raw value of `r`. -/
theorem c2_verify_iff (a : Int) (G P : Point) (z r s : FieldElement)
    (hwG : G.wf) (hwP : P.wf) (u v : FieldElement) (uG vP total : Point)
    (hu : FieldElement.div z s = RustOutcome.ok u)
    (hv : FieldElement.div r s = RustOutcome.ok v)
    (hG : Point.mul a u.value G = RustOutcome.ok uG)
    (hP2 : Point.mul a v.value P = RustOutcome.ok vP)
    (ht : Point.add a uG vP = RustOutcome.ok total) :
    ∃ bres : Bool, verify a G P z r s = RustOutcome.ok bres ∧
      (bres = true ↔ (¬ total.is_identity = true ∧
        ∃ xfe : FieldElement, total.x = some xfe ∧ xfe.value = r.value)) := by
  have hwuG : uG.wf := Point.mul_wf a u.value G uG hwG hG
  have hwvP : vP.wf := Point.mul_wf a v.value P vP hwP hP2
  have hwt : total.wf := Point.add_wf a uG vP total hwuG hwvP ht
  simp only [verify, hu, hv, hG, hP2, ht]
  cases hx : total.x with
  | none =>
    refine ⟨false, rfl, ?_⟩
    constructor
    · intro h
      exact absurd h (by decide)
    · intro hcon
      obtain ⟨xfe, hxe, _⟩ := hcon.2
      cases hxe
  | some xfe =>
    refine ⟨decide (xfe.value = r.value), rfl, ?_⟩
    rw [decide_eq_true_eq]
    constructor
    · intro hval
      refine ⟨?_, xfe, rfl, hval⟩
      intro hid
      have hnone := (Point.wf_x_none_iff total hwt).mpr hid
      rw [hx] at hnone
      cases hnone
    · intro hcon
      obtain ⟨xfe2, hxe2, hval2⟩ := hcon.2
      cases hxe2
      exact hval2

/-- Witness for C2 on the curve `y² = x³ + 7` over the 223-element
field with scalar order 5: the full verification chain at concrete
values. -/
theorem c2_witness :
    ∃ bres : Bool,
      verify 0 ⟨some ⟨192, 223⟩, some ⟨105, 223⟩⟩ ⟨some ⟨192, 223⟩, some ⟨105, 223⟩⟩
        ⟨3, 5⟩ ⟨1, 5⟩ ⟨2, 5⟩ = RustOutcome.ok bres ∧
      (bres = true ↔ (¬ (⟨some ⟨173, 223⟩, some ⟨35, 223⟩⟩ : Point).is_identity = true ∧
        ∃ xfe : FieldElement,
          (⟨some ⟨173, 223⟩, some ⟨35, 223⟩⟩ : Point).x = some xfe ∧
          xfe.value = (⟨1, 5⟩ : FieldElement).value)) :=
  c2_verify_iff 0 ⟨some ⟨192, 223⟩, some ⟨105, 223⟩⟩ ⟨some ⟨192, 223⟩, some ⟨105, 223⟩⟩
    ⟨3, 5⟩ ⟨1, 5⟩ ⟨2, 5⟩ rfl rfl ⟨4, 5⟩ ⟨3, 5⟩
    ⟨some ⟨66, 223⟩, some ⟨111, 223⟩⟩ ⟨some ⟨18, 223⟩, some ⟨189, 223⟩⟩
    ⟨some ⟨173, 223⟩, some ⟨35, 223⟩⟩
    (by decide) (by decide) (by decide) (by decide) (by decide)

/-- Multiplying after reducing the left factor agrees with reducing at
the end. -/
theorem emod_mul_left_arg (m x y : Int) : ((x % m) * y) % m = (x * y) % m := by
  conv_lhs => rw [Int.mul_emod]
  conv_rhs => rw [Int.mul_emod]
  rw [Int.emod_emod_of_dvd _ dvd_rfl]

/-- Multiplying after reducing the right factor agrees with reducing at
the end. -/
theorem emod_mul_right_arg (m x y : Int) : (x * (y % m)) % m = (x * y) % m := by
  conv_lhs => rw [Int.mul_emod]
  conv_rhs => rw [Int.mul_emod]
  rw [Int.emod_emod_of_dvd _ dvd_rfl]

/-- The characterizing congruence of mod-field division: if `inv`
inverts `nonce mod N` and `numv` is congruent to `msg + xd`, then the
quotient `(numv * inv) mod N` multiplied back by `nonce` is congruent
to `msg + xd`. -/
theorem c1_cong_helper (N numv inv nonce msg xd : Int)
    (hinv : (nonce % N * inv) % N = 1)
    (hnum : numv % N = (msg + xd) % N) :
    (((numv * inv) % N) * nonce) % N = (msg + xd) % N := by
  have hinv3 : (inv * nonce) % N = 1 := by
    rw [mul_comm, ← emod_mul_left_arg N nonce inv]
    exact hinv
  rw [emod_mul_left_arg, mul_assoc, ← emod_mul_right_arg N numv (inv * nonce),
    hinv3, mul_one, hnum]

/-- Closed form of a successful field division on canonical pairs. -/
theorem fe_div_val (u w p : Int) (hp : 1 < p) (hg : Int.gcd w p = 1) :
    FieldElement.div ⟨u, p⟩ ⟨w, p⟩ = RustOutcome.ok ⟨(u * modInv w p) % p, p⟩ := by
  show (match invert w p with
    | some inv => RustOutcome.ok (FieldElement.new (u * inv) p)
    | none => RustOutcome.panicked) = _
  unfold invert
  rw [if_pos hg]
  show RustOutcome.ok (FieldElement.new (u * modInv w p) p) = _
  rw [fe_new_val _ _ (by omega : (0 : Int) < p)]

/-- Claim C1: on secp256k1, for a private key with secret `d`, nonce `k`
invertible modulo the order `n` (equivalent to `k mod n ≠ 0` since `n`
is prime) and message hash `z`, `sign` returns a signature whose `r`
is the x coordinate of `(k mod n)·G` re-wrapped modulo `n`, and whose
`s` is `(z + r·d) / k` in the mod-`n` field — witnessed by the unique
`s0 ∈ [0, n)` with `s0·k ≡ z + r·d (mod n)` — then replaced by
`n − s0` whenever `s0 > n/2`, so the returned `s` satisfies
`2·s ≤ n`. -/
theorem c1_sign_correct (d nonce msg : Int) (R : Point) (xr : FieldElement)
    (hgcd : Int.gcd nonce secp_n = 1)
    (hR : Point.mul 0 (value_of secp_n nonce) secp_G = RustOutcome.ok R)
    (hx : R.x = some xr) :
    ∃ s0 : Int,
      0 ≤ s0 ∧ s0 < secp_n ∧
      (s0 * nonce) % secp_n = (msg + xr.value * d) % secp_n ∧
      sign 0 secp_n secp_G (FieldElement.new d secp_n) nonce msg =
        RustOutcome.ok ⟨FieldElement.new xr.value secp_n,
          ⟨if s0 > secp_n / 2 then secp_n - s0 else s0, secp_n⟩⟩ ∧
      2 * (if s0 > secp_n / 2 then secp_n - s0 else s0) ≤ secp_n := by
  have hn1 : (1 : Int) < secp_n := by norm_num [secp_n]
  have hn0 : (0 : Int) < secp_n := by omega
  have hgcd2 : Int.gcd (nonce % secp_n) secp_n = 1 := by
    rw [gcd_emod_left]; exact hgcd
  obtain ⟨hinv_eq, hinv_nonneg, hinv_lt⟩ :=
    modInv_correct (nonce % secp_n) secp_n hn1 hgcd2
  refine ⟨((msg % secp_n + (xr.value * (d % secp_n)) % secp_n) % secp_n *
      modInv (nonce % secp_n) secp_n) % secp_n,
    Int.emod_nonneg _ (by omega), Int.emod_lt_of_pos _ hn0, ?_, ?_, ?_⟩
  · apply c1_cong_helper secp_n _ _ _ _ _ hinv_eq
    rw [Int.emod_emod_of_dvd _ dvd_rfl, emod_mul_right_arg secp_n xr.value d,
      ← Int.add_emod]
  · simp only [sign]
    have harg : (FieldElement.new nonce secp_n).value = value_of secp_n nonce := rfl
    rw [harg, hR]
    simp only [hx]
    have hdiv : ((FieldElement.new msg secp_n).add
          (FieldElement.intMul xr.value (FieldElement.new d secp_n))).div
          (FieldElement.new nonce secp_n) =
        RustOutcome.ok (⟨((msg % secp_n + (xr.value * (d % secp_n)) % secp_n) % secp_n *
          modInv (nonce % secp_n) secp_n) % secp_n, secp_n⟩ : FieldElement) := by
      rw [fe_new_val msg secp_n hn0, fe_new_val d secp_n hn0, fe_new_val nonce secp_n hn0,
        fe_intMul_val _ _ _ hn0, fe_add_val _ _ _ hn0]
      exact fe_div_val _ _ _ hn1 hgcd2
    simp only [hdiv]
    by_cases hcase : ((msg % secp_n + (xr.value * (d % secp_n)) % secp_n) % secp_n *
        modInv (nonce % secp_n) secp_n) % secp_n > secp_n / 2
    · simp only [if_pos hcase]
    · simp only [if_neg hcase]
  · by_cases hcase : ((msg % secp_n + (xr.value * (d % secp_n)) % secp_n) % secp_n *
        modInv (nonce % secp_n) secp_n) % secp_n > secp_n / 2
    · rw [if_pos hcase]
      have hlt : ((msg % secp_n + (xr.value * (d % secp_n)) % secp_n) % secp_n *
          modInv (nonce % secp_n) secp_n) % secp_n < secp_n := Int.emod_lt_of_pos _ hn0
      omega
    · rw [if_neg hcase]
      have hge : 0 ≤ ((msg % secp_n + (xr.value * (d % secp_n)) % secp_n) % secp_n *
          modInv (nonce % secp_n) secp_n) % secp_n := Int.emod_nonneg _ (by omega)
      omega

/-- Witness for C1 at nonce 1, secret 2, message hash 3 on secp256k1
(the generator multiple evaluates concretely, including one full point
doubling with its extended-gcd inversion). -/
theorem c1_witness :
    ∃ s0 : Int,
      0 ≤ s0 ∧ s0 < secp_n ∧
      (s0 * 1) % secp_n = (3 + (⟨secp_gx, secp_p⟩ : FieldElement).value * 2) % secp_n ∧
      sign 0 secp_n secp_G (FieldElement.new 2 secp_n) 1 3 =
        RustOutcome.ok ⟨FieldElement.new (⟨secp_gx, secp_p⟩ : FieldElement).value secp_n,
          ⟨if s0 > secp_n / 2 then secp_n - s0 else s0, secp_n⟩⟩ ∧
      2 * (if s0 > secp_n / 2 then secp_n - s0 else s0) ≤ secp_n :=
  c1_sign_correct 2 1 3 secp_G ⟨secp_gx, secp_p⟩ (by decide) (by decide) rfl

